import Mathlib

/-!
Verification development for `darkob_panel.py` (Darkob — live user activity
panel).  The Python functions are shallowly embedded as executable Lean
functions over `List Char`: a Python `str` is a sequence of unicode code
points.  Python's `\s`, `\d`, `str.isdigit` and `str.strip` character classes
are modelled by their ASCII subsets, which is exact on ASCII input.
-/

namespace Darkob

/-- ASCII subset of Python's regex `\s` / `str.strip()` whitespace class. -/
def pyIsSpace (c : Char) : Bool :=
  c = ' ' || c = '\t' || c = '\n' || c = '\r' || c = '\x0b' || c = '\x0c'

/-- ASCII subset of Python's `\d` / `str.isdigit`. -/
def pyIsDigit (c : Char) : Bool :=
  '0' ≤ c && c ≤ '9'

/-- Python `str.lstrip()` (ASCII whitespace). -/
def pyLStrip (s : List Char) : List Char := s.dropWhile pyIsSpace

/-- Python `str.rstrip()` (ASCII whitespace). -/
def pyRStrip (s : List Char) : List Char := (s.reverse.dropWhile pyIsSpace).reverse

/-- Python `str.strip()` (ASCII whitespace). -/
def pyStrip (s : List Char) : List Char := pyRStrip (pyLStrip s)

/-- Python string `<`: lexicographic on code points; a strict prefix is smaller. -/
def pyStrLt : List Char → List Char → Bool
  | [], [] => false
  | [], _ :: _ => true
  | _ :: _, [] => false
  | a :: as, b :: bs => if a < b then true else if b < a then false else pyStrLt as bs

/-- Function `base_user` from `darkob_panel.py`: drop a leading all-digit prefix that is
followed by the first dot (`5823.mohammad ↦ mohammad`); every other input is
returned unchanged (a find result of -1 is the `none` branch). -/
def base_user (u : List Char) : List Char :=
  if u = [] then u
  else
    match u.findIdx? (fun c => c = '.') with
    | none => u
    | some i =>
      if 0 < i && (u.take i).all pyIsDigit then u.drop (i + 1) else u

/-- A parsed connection-log event, as produced by `parse_line`. -/
structure Event where
  ts : List Char
  user : List Char
  host : List Char
deriving DecidableEq, Repr

/-! ### The regex `RE_MATCHED` as a backtracking matcher

`RE_MATCHED = ^\s*(\d{4}-\d{2}-\d{2} \d{2}:\d{2}:\d{2})\s*\|\s*([^|]+?)\s*\|\s*(.+)\s*$`.

Each regex atom is translated into a continuation-passing combinator whose
alternatives are explored in the same priority order as Python's backtracking
engine (greedy pieces try longer matches first, lazy pieces shorter ones). -/

/-- Atom `\s*` (greedy): consume whitespace, trying longer matches first. -/
def starWs {α : Type} (k : List Char → Option α) : List Char → Option α
  | [] => k []
  | c :: cs =>
    if pyIsSpace c then
      match starWs k cs with
      | some x => some x
      | none => k (c :: cs)
    else k (c :: cs)

/-- Atom `([^|]+?)` (lazy plus over non-`|` characters): shorter matches first; the
continuation receives the captured group and the remaining input. -/
def plusNonPipeLazy {α : Type} (k : List Char → List Char → Option α) :
    List Char → Option α
  | [] => none
  | c :: cs =>
    if c = '|' then none
    else
      match k [c] cs with
      | some x => some x
      | none => plusNonPipeLazy (fun g r => k (c :: g) r) cs

/-- Atom `(.+)` (greedy plus over non-newline characters): longer matches first. -/
def plusDotGreedy {α : Type} (k : List Char → List Char → Option α) :
    List Char → Option α
  | [] => none
  | c :: cs =>
    if c = '\n' then none
    else
      match plusDotGreedy (fun g r => k (c :: g) r) cs with
      | some x => some x
      | none => k [c] cs

/-- A literal character in the pattern. -/
def expectChar {α : Type} (c : Char) (k : List Char → Option α) : List Char → Option α
  | [] => none
  | x :: xs => if x = c then k xs else none

/-- The character-class sequence of the fixed-width timestamp
`\d{4}-\d{2}-\d{2} \d{2}:\d{2}:\d{2}` (19 positions). -/
def tsPattern : List (Char → Bool) :=
  [pyIsDigit, pyIsDigit, pyIsDigit, pyIsDigit, fun c => c = '-',
   pyIsDigit, pyIsDigit, fun c => c = '-', pyIsDigit, pyIsDigit,
   fun c => c = ' ', pyIsDigit, pyIsDigit, fun c => c = ':',
   pyIsDigit, pyIsDigit, fun c => c = ':', pyIsDigit, pyIsDigit]

/-- A list matches a fixed sequence of character classes position by
position, with equal lengths. -/
def matchesPattern : List (Char → Bool) → List Char → Bool
  | [], [] => true
  | p :: ps, c :: cs => p c && matchesPattern ps cs
  | _, _ => false

/-- The timestamp group's shape. -/
def tsShape (l : List Char) : Bool := matchesPattern tsPattern l

/-- The tail `\s*$` of the pattern, producing the three capture groups. -/
def finishRe (ts g2 g3 : List Char) : List Char → Option (List Char × List Char × List Char) :=
  starWs (fun s5 => if s5 = [] then some (ts, g2, g3) else none)

/-- Atoms `\s*(.+)` followed by the tail: the host-group part after the second
pipe. -/
def hostPart (ts g2 : List Char) : List Char → Option (List Char × List Char × List Char) :=
  starWs (fun s4 => plusDotGreedy (fun g3 r3 => finishRe ts g2 g3 r3) s4)

/-- Atoms `\s*\|` after the user group, then the host part. -/
def afterUser (ts g2 : List Char) : List Char → Option (List Char × List Char × List Char) :=
  starWs (expectChar '|' (fun s3 => hostPart ts g2 s3))

/-- Atom `([^|]+?)` and everything after it. -/
def userPart (ts : List Char) : List Char → Option (List Char × List Char × List Char) :=
  plusNonPipeLazy (fun g2 r2 => afterUser ts g2 r2)

/-- Atoms `\s*\|` after the timestamp group, then the user part. -/
def afterTs (ts : List Char) : List Char → Option (List Char × List Char × List Char) :=
  starWs (expectChar '|' (fun s2 => userPart ts s2))

/-- Function `re.match(RE_MATCHED, s)`, returning the three capture groups.  `$` is
modelled as end of input: the pattern ends in `\s*$` and `\n` is in `\s`, so a
Python match placing `$` before a final newline extends to one that consumes
the newline, with identical capture groups. -/
def reMatchGroups (s : List Char) : Option (List Char × List Char × List Char) :=
  starWs (fun s1 =>
    if tsShape (s1.take 19) then afterTs (s1.take 19) (s1.drop 19)
    else none) s

/-- The sentinel substituted for an empty host field. -/
def UNKNOWN : List Char := "UNKNOWN".toList

/-- Function `parse_line` from `darkob_panel.py`: match `RE_MATCHED`, strip the user and
host groups, reject an empty user, and substitute `"UNKNOWN"` for an empty
host (the `host or UNKNOWN` fallback). -/
def parse_line (line : List Char) : Option Event :=
  match reMatchGroups line with
  | none => none
  | some (ts, u, h) =>
    let user := pyStrip u
    if user = [] then none
    else
      let host := pyStrip h
      some ⟨ts, user, if host = [] then UNKNOWN else host⟩

example : parse_line ("2024-01-01 00:00:00 | u | h".toList) =
    some ⟨"2024-01-01 00:00:00".toList, "u".toList, "h".toList⟩ := by decide

example : parse_line ("  2024-01-01 00:00:00|u|h  ".toList) =
    some ⟨"2024-01-01 00:00:00".toList, "u".toList, "h".toList⟩ := by decide

example : parse_line ("2024-01-01 00:00:00 |  | h".toList) = none := by decide

example : parse_line ("2024-01-01 00:00:00 | u |".toList) = none := by decide

example : parse_line ("2024-01-01 00:00:00 | u |   ".toList) =
    some ⟨"2024-01-01 00:00:00".toList, "u".toList, UNKNOWN⟩ := by decide

example : parse_line ("2024-01-01 00:00:00 | u | a | b".toList) =
    some ⟨"2024-01-01 00:00:00".toList, "u".toList, "a | b".toList⟩ := by decide

example : parse_line ("2024-01-01 00:00:00 | u | h\nx".toList) = none := by decide

example : parse_line ("2024-01-01 00:00:00 | u |\n".toList) = none := by decide

example : parse_line ("2024-01-01 00:00:00 | u |\n ".toList) =
    some ⟨"2024-01-01 00:00:00".toList, "u".toList, UNKNOWN⟩ := by decide

example : parse_line ("2024-01-01  00:00:00 | u | h".toList) = none := by decide

/-! ### The backward file reader and history paging -/

/-- Python `bytes.split(b"\n")`: split on every newline, keeping empty
segments (`b"".split(b"\n") = [b""]`). -/
def splitNl : List Char → List (List Char)
  | [] => [[]]
  | c :: cs =>
    if c = '\n' then [] :: splitNl cs
    else
      match splitNl cs with
      | [] => [[c]]
      | s :: ss => (c :: s) :: ss

theorem splitNl_ne_nil (l : List Char) : splitNl l ≠ [] := by
  induction l with
  | nil => simp [splitNl]
  | cons c cs ih =>
    simp only [splitNl]
    split
    · simp
    · cases h : splitNl cs <;> simp

/-- The loop of `_iter_file_backward`: `pos` is the current file offset,
`buffer` the carried bytes; returns the lines yielded from this point on, in
yield order.  Each pass reads `min chunk pos` bytes ending at `pos`, prepends
them to the carry, splits on newlines keeping the **last** segment as the new
carry (`*lines, buffer = buffer.split(b"\n")`) and yields the remaining
segments reversed; after the loop the carry is yielded if non-empty.  (With
`chunk = 0` the Python loop never terminates; the model stops there, and
every claim quantifies over positive chunk sizes only.)

As the loop shrinks `pos` by `min chunk pos ≥ 1` on every pass (for a
positive chunk size), structural recursion on a `fuel` argument initialised
to the starting `pos` is exact: `pos ≤ fuel` is invariant, so `fuel` can
reach `0` only together with `pos`, and the two base cases agree. -/
def iterBackAux (c : List Char) (chunk : Nat) :
    Nat → Nat → List Char → List (List Char)
  | _, 0, buffer => if buffer = [] then [] else [buffer]
  | 0, _, buffer => if buffer = [] then [] else [buffer]
  | fuel + 1, pos + 1, buffer =>
    let rs := min chunk (pos + 1)
    let data := (c.drop (pos + 1 - rs)).take rs
    let segs := splitNl (data ++ buffer)
    segs.dropLast.reverse ++
      iterBackAux c chunk fuel (pos + 1 - rs) (segs.getLast (splitNl_ne_nil _))

/-- Function `_iter_file_backward` from `darkob_panel.py` (default chunk size
`1 <<< 16`), applied to the whole content. -/
def iter_file_backward (c : List Char) (chunk : Nat := 1 <<< 16) :
    List (List Char) :=
  iterBackAux c chunk c.length c.length []

example : iter_file_backward ("a\nb\nc".toList) =
    ["b".toList, "a".toList, "c".toList] := by decide

example : iter_file_backward ("a\nb\nc\n".toList) =
    ["c".toList, "b".toList, "a".toList] := by decide

example : iter_file_backward ("hello\nworld\n".toList) 8 =
    ["world".toList, "o".toList, "hell".toList] := by decide

example : iter_file_backward ("abcdef\ngh\n".toList) 4 =
    ["gh".toList, [], "abcdef".toList] := by decide

example : iter_file_backward [] = [] := by decide

example : iter_file_backward ("\n".toList) = [[]] := by decide

/-- The per-line filter and early-`break` collection loop of
`tail_user_events`: skip lines that fail to parse, events not strictly older
than a truthy `before_ts`, and events of a different base; stop once `limit`
events are collected (the bound is tested after appending, as in the loop). -/
def collectBack (base : List Char) (before_ts : Option (List Char))
    (limit : Nat) : List (List Char) → Nat → List Event
  | [], _ => []
  | raw :: rest, cnt =>
    match parse_line (pyStrip raw) with
    | none => collectBack base before_ts limit rest cnt
    | some ev =>
      if (match before_ts with
          | some b => !(b.isEmpty) && !(pyStrLt ev.ts b)
          | none => false) then
        collectBack base before_ts limit rest cnt
      else if base_user ev.user ≠ base then
        collectBack base before_ts limit rest cnt
      else
        ev :: (if limit ≤ cnt + 1 then [] else collectBack base before_ts limit rest (cnt + 1))

/-- Function `tail_user_events` from `darkob_panel.py`: walk the file backward with the
default chunk size, collect up to `limit` matching events, and reverse the
collected list before returning.  (`if before_ts and ...`: a `None` or empty
cursor disables the cursor filter.) -/
def tail_user_events (c : List Char) (base : List Char) (limit : Nat := 300)
    (before_ts : Option (List Char) := none) : List Event :=
  (collectBack base before_ts limit (iter_file_backward c) 0).reverse

/-! ### The full scanner -/

/-- Python `f.readline()` at the current offset: the characters up to and including
the next newline, or to end of input. -/
def takeLine : List Char → List Char
  | [] => []
  | c :: cs => if c = '\n' then ['\n'] else c :: takeLine cs

/-- Python `line.rstrip("\n")`. -/
def rstripNl (l : List Char) : List Char :=
  (l.reverse.dropWhile (fun c => c = '\n')).reverse

/-- The read loop of `full_scan_file` over content `c` with the snapshotted
`stop` offset: break as soon as the position reaches `stop`, otherwise read
one full line (even if it runs past `stop`) and apply it; returns the events
applied, in order.  A `readline` returning no data makes the Python loop
sleep and retry; this is unreachable whenever `stop ≤ c.length`, which holds
for every input considered here, and the model stops there.

As every executed pass moves `pos` forward by `line.length ≥ 1`, structural
recursion on a `fuel` argument initialised to `stop - pos` is exact:
`stop - pos ≤ fuel` is invariant, so `fuel` can reach `0` only when
`stop ≤ pos`, where the loop breaks anyway. -/
def fullScanAux (c : List Char) (stop : Nat) : Nat → Nat → List Event
  | 0, _ => []
  | fuel + 1, pos =>
    if stop ≤ pos then []
    else
      let line := takeLine (c.drop pos)
      if line = [] then []
      else (parse_line (rstripNl line)).toList ++ fullScanAux c stop fuel (pos + line.length)

/-- The events applied by the full-scan read loop, from offset `pos` up to the
snapshotted `stop` offset. -/
def full_scan_events (c : List Char) (stop : Nat) (pos : Nat) : List Event :=
  fullScanAux c stop (stop - pos) pos

/-- The published scan progress (`FULL_SCAN_*` globals; sizes are modelled in
characters). -/
structure ScanProgress where
  total_bytes : Nat
  read_bytes : Nat
  done : Bool
  err : Option (List Char)
deriving DecidableEq, Repr

/-- Function `full_scan_file`: snapshot `stop_offset` as the file size at scan start
(`c0.length`), read lines from offset 0 of the full content — the snapshot
plus whatever `ext` was appended after the scan started — and publish the
final progress.  A missing file (`none`) takes the `FileNotFoundError`
branch. -/
def full_scan_file (file : Option (List Char × List Char)) :
    List Event × ScanProgress :=
  match file with
  | none => ([], ⟨0, 0, true, some ("log not found".toList)⟩)
  | some (c0, ext) =>
    (full_scan_events (c0 ++ ext) c0.length 0, ⟨c0.length, c0.length, true, none⟩)

/-! ### The in-memory aggregation index -/

/-- Constant `MAX_HOSTS_PER_USER` (default of the environment variable). -/
def MAX_HOSTS_PER_USER : Nat := 200

/-- One aggregate record of the index `AGG` (the Python dict
`{"count", "last_ts", "sample_host", "variants", "hosts"}`; the two Python
sets are modelled as finite sets). -/
structure Agg where
  count : Nat
  last_ts : List Char
  sample_host : List Char
  variants : Finset (List Char)
  hosts : Finset (List Char)
deriving DecidableEq

/-- The index `AGG`, keyed by base username. -/
def AggMap : Type := List Char → Option Agg

/-- Function `_apply_event_to_agg` from `darkob_panel.py`: create a fresh record when
the base key is absent, then increment `count`; move `last_ts`/`sample_host`
when `last_ts` is falsy (empty) or the event's timestamp is strictly greater
(`str(ev["ts"]) > str(a["last_ts"])`); always add the raw username to
`variants`; add a non-empty host while `hosts` is below the cap. -/
def apply_event_to_agg (AGG : AggMap) (ev : Event) : AggMap :=
  let b := base_user ev.user
  let a :=
    match AGG b with
    | some a => a
    | none =>
      { count := 0, last_ts := ev.ts, sample_host := ev.host,
        variants := {ev.user},
        hosts := if ev.host = [] then ∅ else {ev.host} }
  let a := { a with count := a.count + 1 }
  let a :=
    if a.last_ts.isEmpty || pyStrLt a.last_ts ev.ts then
      { a with last_ts := ev.ts, sample_host := ev.host }
    else a
  let a := { a with variants := insert ev.user a.variants }
  let a :=
    if ev.host ≠ [] ∧ a.hosts.card < MAX_HOSTS_PER_USER then
      { a with hosts := insert ev.host a.hosts }
    else a
  fun k => if k = b then some a else AGG k

/-- Applying a whole list of events in order. -/
def apply_events (AGG : AggMap) (evs : List Event) : AggMap :=
  evs.foldl apply_event_to_agg AGG

/-! ### The SSE broadcaster -/

/-- The `Broadcaster` registry: a set of registered channel handles, the
queue contents of every channel ever created, and a fresh-handle counter.
Messages have an abstract type `μ`. -/
structure Broadcaster (μ : Type) where
  subscribers : Finset Nat
  queues : Nat → List μ
  nextId : Nat

/-- Method `subscribe`: create a fresh empty channel, register it, return its
handle. -/
def Broadcaster.subscribe {μ : Type} (st : Broadcaster μ) :
    Nat × Broadcaster μ :=
  (st.nextId,
   { subscribers := insert st.nextId st.subscribers,
     queues := fun k => if k = st.nextId then [] else st.queues k,
     nextId := st.nextId + 1 })

/-- Method `unsubscribe`, that is `self.subscribers.discard(q)`. -/
def Broadcaster.unsubscribe {μ : Type} (st : Broadcaster μ) (q : Nat) :
    Broadcaster μ :=
  { st with subscribers := st.subscribers.erase q }

/-- Method `broadcast`: a non-blocking `put_nowait` of `msg` to every currently
registered channel; `accepts q = false` models `put_nowait` raising (a full
or closed channel), and every such channel is collected in `dead` and
unsubscribed before the call returns. -/
def Broadcaster.broadcast {μ : Type} (st : Broadcaster μ) (accepts : Nat → Bool)
    (msg : μ) : Broadcaster μ :=
  { st with
    subscribers := st.subscribers.filter (fun q => accepts q = true),
    queues := fun q =>
      if q ∈ st.subscribers ∧ accepts q = true then st.queues q ++ [msg]
      else st.queues q }

/-! ### The stats file and its query -/

/-- The observable states of the external stats file: missing, unreadable or
non-JSON content, JSON that is not an object, or a JSON object whose entries
carry the two counters `warnings_after_second` and `deactivated_times`
(the `Number(v.x || 0)` coercion of the page is modelled by the counters
being read as numbers, `0` when absent). -/
inductive StatsFile
  | missing
  | malformed
  | nonObject
  | obj (entries : List (List Char × Nat × Nat))

/-- Endpoint `api_stats`: a missing file, unreadable content and a non-object JSON
value all produce `{}`; an object is returned verbatim (no re-keying on the
server side). -/
def api_stats : StatsFile → List (List Char × Nat × Nat)
  | .missing => []
  | .malformed => []
  | .nonObject => []
  | .obj entries => entries

/-- Lookup in an association list of per-key counters. -/
def lookupStat (b : List Char) :
    List (List Char × Nat × Nat) → Option (Nat × Nat)
  | [] => none
  | (k, w, d) :: rest => if k = b then some (w, d) else lookupStat b rest

/-- One step of the `refreshStats` loop in the served page: add `(w, d)` to
the accumulated counters of key `b`, creating the key (at the end, preserving
object insertion order) if absent. -/
def bumpStat (b : List Char) (w d : Nat) :
    List (List Char × Nat × Nat) → List (List Char × Nat × Nat)
  | [] => [(b, w, d)]
  | (k, w0, d0) :: rest =>
    if k = b then (k, w0 + w, d0 + d) :: rest
    else (k, w0, d0) :: bumpStat b w d rest

/-- The `refreshStats` normalization in the served page: fold over the raw
entries re-keying by the base key (the page's inline
`i>0 && /^[0-9]+$/.test(k.slice(0,i))` rule computes exactly `base_user`) and
summing the two counters. -/
def refreshStats (raw : List (List Char × Nat × Nat)) :
    List (List Char × Nat × Nat) :=
  raw.foldl (fun acc e => bumpStat (base_user e.1) e.2.1 e.2.2 acc) []

/-- What the page displays for base `b`: the stats query composed with the
client-side normalization. -/
def statsQuery (fs : StatsFile) (b : List Char) : Option (Nat × Nat) :=
  lookupStat b (refreshStats (api_stats fs))

example : base_user ("5823.mohammad".toList) = "mohammad".toList := by decide

example : base_user ("58a3.mohammad".toList) = "58a3.mohammad".toList := by decide

example : base_user ("5823.".toList) = [] := by decide

/-! ### Order facts about Python string comparison -/

theorem lex_irrefl (x : List Char) : ¬List.Lex (· < ·) x x := by
  induction x with
  | nil =>
    intro h
    cases h
  | cons a as ih =>
    intro h
    cases h with
    | cons h => exact ih h
    | rel h => exact lt_irrefl a h

theorem lex_trans {x y z : List Char} (h1 : List.Lex (· < ·) x y)
    (h2 : List.Lex (· < ·) y z) : List.Lex (· < ·) x z := by
  induction h1 generalizing z with
  | nil =>
    cases h2 with
    | cons h => exact List.Lex.nil
    | rel h => exact List.Lex.nil
  | cons h ih =>
    cases h2 with
    | cons h' => exact List.Lex.cons (ih h')
    | rel h' => exact List.Lex.rel h'
  | rel h =>
    cases h2 with
    | cons h' => exact List.Lex.rel h
    | rel h' => exact List.Lex.rel (lt_trans h h')

theorem lex_trichotomy (x : List Char) : ∀ y : List Char,
    List.Lex (· < ·) x y ∨ x = y ∨ List.Lex (· < ·) y x := by
  induction x with
  | nil =>
    intro y
    cases y with
    | nil => exact Or.inr (Or.inl rfl)
    | cons b bs => exact Or.inl List.Lex.nil
  | cons a as ih =>
    intro y
    cases y with
    | nil => exact Or.inr (Or.inr List.Lex.nil)
    | cons b bs =>
      rcases lt_trichotomy a b with hab | rfl | hba
      · exact Or.inl (List.Lex.rel hab)
      · rcases ih bs with h | rfl | h
        · exact Or.inl (List.Lex.cons h)
        · exact Or.inr (Or.inl rfl)
        · exact Or.inr (Or.inr (List.Lex.cons h))
      · exact Or.inr (Or.inr (List.Lex.rel hba))

theorem pyStrLt_iff_lex : ∀ {x y : List Char}, pyStrLt x y = true ↔ List.Lex (· < ·) x y := by
  intro x
  induction x with
  | nil =>
    intro y
    cases y with
    | nil =>
      constructor
      · intro h
        simp [pyStrLt] at h
      · intro h
        cases h
    | cons b bs =>
      constructor
      · intro _
        exact List.Lex.nil
      · intro _
        rfl
  | cons a as ih =>
    intro y
    cases y with
    | nil =>
      constructor
      · intro h
        simp [pyStrLt] at h
      · intro h
        cases h
    | cons b bs =>
      simp only [pyStrLt]
      by_cases h1 : a < b
      · rw [if_pos h1]
        constructor
        · intro _
          exact List.Lex.rel h1
        · intro _
          rfl
      · by_cases h2 : b < a
        · rw [if_neg h1, if_pos h2]
          constructor
          · intro h
            simp at h
          · intro hl
            exfalso
            cases hl with
            | cons h => exact lt_irrefl a h2
            | rel h => exact h1 h
        · have hab : a = b := le_antisymm (not_lt.mp h2) (not_lt.mp h1)
          subst hab
          rw [if_neg h1, if_neg h2, ih]
          constructor
          · exact fun h => List.Lex.cons h
          · intro hl
            cases hl with
            | cons h => exact h
            | rel h => exact absurd h h1

theorem pyStrLt_irrefl (x : List Char) : pyStrLt x x = false := by
  rw [Bool.eq_false_iff]
  intro h
  exact lex_irrefl x (pyStrLt_iff_lex.mp h)

theorem pyStrLt_asymm {x y : List Char} (h : pyStrLt x y = true) :
    pyStrLt y x = false := by
  rw [Bool.eq_false_iff]
  intro h2
  exact lex_irrefl x (lex_trans (pyStrLt_iff_lex.mp h) (pyStrLt_iff_lex.mp h2))

theorem pyStrLt_le_trans {x y z : List Char} (h1 : pyStrLt y x = false)
    (h2 : pyStrLt z y = false) : pyStrLt z x = false := by
  rw [Bool.eq_false_iff] at h1 h2 ⊢
  intro h
  rcases lex_trichotomy z y with hzy | rfl | hyz
  · exact h2 (pyStrLt_iff_lex.mpr hzy)
  · exact h1 h
  · exact h1 (pyStrLt_iff_lex.mpr (lex_trans hyz (pyStrLt_iff_lex.mp h)))

/-- The value the update `if falsy(last) or new > last` of `_apply_event_to_agg`
computes: the larger of the two strings, the old one on ties. -/
def pyMax (x y : List Char) : List Char := if pyStrLt x y then y else x

theorem pyMax_eq_or (x y : List Char) : pyMax x y = x ∨ pyMax x y = y := by
  unfold pyMax
  split
  · exact Or.inr rfl
  · exact Or.inl rfl

theorem pyStrLt_pyMax_left (x y : List Char) : pyStrLt (pyMax x y) x = false := by
  by_cases h : pyStrLt x y = true
  · simp only [pyMax, h, if_true]
    exact pyStrLt_asymm h
  · simp only [pyMax, h, if_false, Bool.false_eq_true]
    exact pyStrLt_irrefl x

theorem pyStrLt_pyMax_right (x y : List Char) : pyStrLt (pyMax x y) y = false := by
  by_cases h : pyStrLt x y = true
  · simp only [pyMax, h, if_true]
    exact pyStrLt_irrefl y
  · simp only [pyMax, h, if_false, Bool.false_eq_true]

/-- Predicate: `t` is a lexicographically maximal element of `l`. -/
def IsLexMax (t : List Char) (l : List (List Char)) : Prop :=
  t ∈ l ∧ ∀ x ∈ l, pyStrLt t x = false

theorem foldl_pyMax_isLexMax (l : List (List Char)) : ∀ t : List Char,
    IsLexMax (l.foldl pyMax t) (t :: l) := by
  induction l with
  | nil =>
    intro t
    refine ⟨List.mem_singleton.mpr rfl, ?_⟩
    intro x hx
    rw [List.mem_singleton] at hx
    subst hx
    exact pyStrLt_irrefl _
  | cons y l ih =>
    intro t
    obtain ⟨hmem, hbound⟩ := ih (pyMax t y)
    rw [List.foldl_cons]
    constructor
    · rcases List.mem_cons.mp hmem with hhead | htail
      · rcases pyMax_eq_or t y with hx | hy
        · rw [hhead, hx]
          exact List.mem_cons_self _ _
        · rw [hhead, hy]
          exact List.mem_cons_of_mem _ (List.mem_cons_self _ _)
      · exact List.mem_cons_of_mem _ (List.mem_cons_of_mem _ htail)
    · intro x hx
      rcases List.mem_cons.mp hx with rfl | hx'
      · exact pyStrLt_le_trans (pyStrLt_pyMax_left x y)
          (hbound _ (List.mem_cons_self _ _))
      rcases List.mem_cons.mp hx' with rfl | hx''
      · exact pyStrLt_le_trans (pyStrLt_pyMax_right t x)
          (hbound _ (List.mem_cons_self _ _))
      · exact hbound x (List.mem_cons_of_mem _ hx'')

/-! ### Claim C2: `base_user` -/

theorem findIdx?_dot_append (s : List Char) : ∀ p : List Char, '.' ∉ p → ∀ i : Nat,
    List.findIdx? (fun c => c = '.') (p ++ '.' :: s) i = some (p.length + i) := by
  intro p
  induction p with
  | nil =>
    intro _ i
    simp [List.findIdx?_cons]
  | cons a p ih =>
    intro hnp i
    have ha : ¬(a = '.') := fun h => hnp (h ▸ List.mem_cons_self a p)
    rw [List.cons_append, List.findIdx?_cons, if_neg (by simpa using ha),
      ih (fun h => hnp (List.mem_cons_of_mem a h)) (i + 1)]
    congr 1
    simp only [List.length_cons]
    omega

theorem findIdx?_dot_spec : ∀ (u : List Char) (i j : Nat),
    List.findIdx? (fun c => c = '.') u i = some j →
    i ≤ j ∧ j - i < u.length ∧ '.' ∉ u.take (j - i) ∧
      u = u.take (j - i) ++ '.' :: u.drop (j - i + 1) := by
  intro u
  induction u with
  | nil =>
    intro i j h
    simp [List.findIdx?] at h
  | cons a l ih =>
    intro i j h
    rw [List.findIdx?_cons] at h
    by_cases ha : a = '.'
    · rw [if_pos (by simpa using ha)] at h
      have hij : j = i := (Option.some_inj.mp h).symm
      subst hij
      subst ha
      simp
    · rw [if_neg (by simpa using ha)] at h
      obtain ⟨h1, h2, h3, h4⟩ := ih (i + 1) j h
      have hji : j - i = (j - (i + 1)) + 1 := by omega
      refine ⟨by omega, by simp only [List.length_cons]; omega, ?_, ?_⟩
      · rw [hji, List.take_succ_cons]
        intro hmem
        rcases List.mem_cons.mp hmem with heq | hmem'
        · exact ha heq.symm
        · exact h3 hmem'
      · rw [hji, List.take_succ_cons, List.drop_succ_cons, List.cons_append]
        exact congrArg (a :: ·) h4

theorem base_user_some (u : List Char) (i : Nat) (hu : ¬u = [])
    (hidx : u.findIdx? (fun c => c = '.') = some i) :
    base_user u = if 0 < i && (u.take i).all pyIsDigit then u.drop (i + 1) else u := by
  unfold base_user
  rw [if_neg hu, hidx]

theorem base_user_none (u : List Char)
    (hidx : u.findIdx? (fun c => c = '.') = none) : base_user u = u := by
  by_cases hu : u = []
  · simp [base_user, hu]
  · unfold base_user
    rw [if_neg hu, hidx]

/-- C2 counterexample: for the all-digit-prefix, empty-suffix boundary case
the claim predicts `base_user("5823.") = "5823."`, but the code strips the
prefix and the dot and returns the empty string. -/
theorem c2_counterexample :
    base_user ("5823.".toList) = [] ∧ base_user ("5823.".toList) ≠ "5823.".toList := by
  decide

/-- C2 (amended): `base_user` returns the suffix after the first dot exactly
when that dot is at a position `i > 0` and the prefix before it is entirely
digits — including the empty-suffix case `base_user("5823.") = ""` — and
returns the input unchanged otherwise. -/
theorem c2_base_user_characterization :
    (∀ p s : List Char, p ≠ [] → p.all pyIsDigit = true → '.' ∉ p →
      base_user (p ++ '.' :: s) = s) ∧
    (∀ u : List Char,
      (∀ p s : List Char, u = p ++ '.' :: s → '.' ∉ p →
        p = [] ∨ p.all pyIsDigit = false) →
      base_user u = u) := by
  constructor
  · intro p s hp hdig hnp
    have hne : ¬(p ++ '.' :: s = []) := by simp
    have hidx := findIdx?_dot_append s p hnp 0
    rw [Nat.add_zero] at hidx
    rw [base_user_some _ _ hne hidx]
    have htake : (p ++ '.' :: s).take p.length = p := List.take_left p ('.' :: s)
    have hdrop : (p ++ '.' :: s).drop (p.length + 1) = s := by
      have h1 : p ++ '.' :: s = (p ++ ['.']) ++ s := by simp
      have h2 : p.length + 1 = (p ++ ['.']).length := by simp
      rw [h1, h2]
      exact List.drop_left _ s
    rw [htake, hdrop, if_pos]
    rw [hdig, Bool.and_true, decide_eq_true_eq]
    exact List.length_pos.mpr hp
  · intro u hu
    by_cases hu0 : u = []
    · simp [base_user, hu0]
    cases hidx : u.findIdx? (fun c => c = '.') with
    | none => exact base_user_none u hidx
    | some j =>
      rw [base_user_some u j hu0 hidx]
      obtain ⟨_, hlen, hmem, heq⟩ := findIdx?_dot_spec u 0 j hidx
      simp only [Nat.sub_zero] at hlen hmem heq
      rcases hu (u.take j) (u.drop (j + 1)) heq hmem with hnil | hdig
      · have hj : j = 0 := by
          rcases List.take_eq_nil_iff.mp hnil with h | h
          · exact h
          · exact absurd h hu0
        rw [hj]
        simp
      · rw [hdig]
        simp

/-- C2 witness: the general rule applied at `"5823" ++ "." ++ "mohammad"`. -/
theorem c2_witness :
    base_user ("5823".toList ++ '.' :: "mohammad".toList) = "mohammad".toList :=
  c2_base_user_characterization.1 ("5823".toList) "mohammad".toList
    (by decide) (by decide) (by decide)

/-! ### Claim C3: the backward file reader -/

/-- C3: the backward reader does **not** return the file's lines in reverse
physical order, and does **not** reassemble a line spanning a chunk boundary.
For `"a\nb\nc"` it yields `["b", "a", "c"]` — the trailing unterminated line
is kept in the carry and emitted last — instead of `["c", "b", "a"]`; and for
`"hello\nworld\n"` with chunk size 8 it yields `["world", "o", "hell"]`,
fragmenting `"hello"`, because `*lines, buffer = buffer.split(b"\n")` keeps
the segment after the **last** newline as the carry instead of the segment
before the **first** newline. -/
theorem c3_backward_reader_bug :
    iter_file_backward ("a\nb\nc".toList) = ["b".toList, "a".toList, "c".toList] ∧
    iter_file_backward ("a\nb\nc".toList) ≠ ["c".toList, "b".toList, "a".toList] ∧
    iter_file_backward ("hello\nworld\n".toList) 8 =
      ["world".toList, "o".toList, "hell".toList] := by
  decide

/-! ### Claim C4: `tail_user_events` paging -/

def c4Line1 : List Char := "2024-01-01 00:00:01 | x | a".toList

def c4Line2 : List Char := "2024-01-01 00:00:02 | x | b".toList

def c4Line3 : List Char := "2024-01-01 00:00:03 | x | c".toList

/-- A log holding three events for user `x` at T1 < T2 < T3, with no
trailing newline after the last line. -/
def c4Content : List Char := c4Line1 ++ '\n' :: c4Line2 ++ '\n' :: c4Line3

def c4E1 : Event := ⟨"2024-01-01 00:00:01".toList, "x".toList, "a".toList⟩

def c4E2 : Event := ⟨"2024-01-01 00:00:02".toList, "x".toList, "b".toList⟩

def c4E3 : Event := ⟨"2024-01-01 00:00:03".toList, "x".toList, "c".toList⟩

/-- C4: on a chronologically ordered file whose last line is not
newline-terminated, `PageBefore(x, 10, null)` returns `[T3, T1, T2]` — not
the claimed ascending `[T1, T2, T3]` — because `_iter_file_backward` yields
the trailing unterminated line last instead of first.  The cursor variant
`PageBefore(x, 10, T3)` does return `[T1, T2]` here. -/
theorem c4_page_before_bug :
    tail_user_events c4Content ("x".toList) 10 none = [c4E3, c4E1, c4E2] ∧
    ([c4E3, c4E1, c4E2] : List Event) ≠ [c4E1, c4E2, c4E3] ∧
    tail_user_events c4Content ("x".toList) 10
      (some ("2024-01-01 00:00:03".toList)) = [c4E1, c4E2] := by
  decide

/-! ### Facts about `_apply_event_to_agg` -/

theorem update_eq_pyMax (t n : List Char) :
    (if t.isEmpty || pyStrLt t n then n else t) = pyMax t n := by
  cases t with
  | nil =>
    cases n with
    | nil => rfl
    | cons c cs => rfl
  | cons a as =>
    simp only [List.isEmpty_cons, Bool.false_or]
    rfl

/-- The record stored back at the event's base key when a record already
exists: the code's whole update chain, in one explicit record. -/
theorem apply_event_some_eq (M : AggMap) (ev : Event) (a : Agg)
    (h : M (base_user ev.user) = some a) :
    apply_event_to_agg M ev (base_user ev.user) =
      some ⟨a.count + 1,
        if a.last_ts.isEmpty || pyStrLt a.last_ts ev.ts then ev.ts else a.last_ts,
        if a.last_ts.isEmpty || pyStrLt a.last_ts ev.ts then ev.host
          else a.sample_host,
        insert ev.user a.variants,
        if ev.host ≠ [] ∧ a.hosts.card < MAX_HOSTS_PER_USER then
          insert ev.host a.hosts
        else a.hosts⟩ := by
  by_cases hts : (a.last_ts.isEmpty || pyStrLt a.last_ts ev.ts) = true
  · by_cases hh : ev.host ≠ [] ∧ a.hosts.card < MAX_HOSTS_PER_USER
    · simp [apply_event_to_agg, h, hts, hh]
    · simp [apply_event_to_agg, h, hts, hh]
  · by_cases hh : ev.host ≠ [] ∧ a.hosts.card < MAX_HOSTS_PER_USER
    · simp [apply_event_to_agg, h, hts, hh]
    · simp [apply_event_to_agg, h, hts, hh]

/-- The record created when the event's base key is absent. -/
theorem apply_event_none_eq (M : AggMap) (ev : Event)
    (h : M (base_user ev.user) = none) :
    apply_event_to_agg M ev (base_user ev.user) =
      some ⟨1, ev.ts, ev.host, {ev.user},
        if ev.host = [] then ∅ else {ev.host}⟩ := by
  by_cases hhost : ev.host = []
  · by_cases hts : ev.ts.isEmpty = true
    · simp [apply_event_to_agg, h, hhost, hts, pyStrLt_irrefl, Finset.insert_idem]
    · simp [apply_event_to_agg, h, hhost, hts, pyStrLt_irrefl, Finset.insert_idem]
  · by_cases hts : ev.ts.isEmpty = true
    · simp [apply_event_to_agg, h, hhost, hts, pyStrLt_irrefl, Finset.insert_idem,
        MAX_HOSTS_PER_USER]
    · simp [apply_event_to_agg, h, hhost, hts, pyStrLt_irrefl, Finset.insert_idem,
        MAX_HOSTS_PER_USER]

/-- Keys other than the event's base key are untouched. -/
theorem apply_event_other (M : AggMap) (ev : Event) (k : List Char)
    (h : ¬(k = base_user ev.user)) : apply_event_to_agg M ev k = M k := by
  simp only [apply_event_to_agg]
  rw [if_neg h]

/-! ### Claim C1: the `last_ts`/`sample_host` update rule -/

def c1Ts : List Char := "2024-01-01 00:00:00".toList

def c1Agg : Agg :=
  ⟨3, c1Ts, "h1".toList, {"u".toList}, {"h1".toList}⟩

def c1Map : AggMap := fun k => if k = "u".toList then some c1Agg else none

def c1Ev : Event := ⟨c1Ts, "u".toList, "h2".toList⟩

/-- C1 counterexample: on a timestamp tie the claim says `sampleHost` moves to
the incoming event's host, but the code's strict `>` keeps the stored one:
applying an event with the stored timestamp and host `"h2"` leaves
`sample_host = "h1"`. -/
theorem c1_counterexample :
    c1Ev.ts = c1Agg.last_ts ∧
    c1Map (base_user c1Ev.user) = some c1Agg ∧
    (apply_event_to_agg c1Map c1Ev (base_user c1Ev.user)).map Agg.sample_host =
      some ("h1".toList) ∧
    c1Ev.host = "h2".toList ∧ ("h1".toList : List Char) ≠ "h2".toList := by
  decide

/-- C1 (amended): for an existing record, `Apply` moves `lastTimestamp` and
`sampleHost` to the incoming event exactly when the stored `lastTimestamp` is
empty or the incoming timestamp is lexicographically **strictly greater**
(ties keep the stored values); on an equal or smaller incoming timestamp both
fields are left unchanged. -/
theorem c1_last_ts_update (M : AggMap) (ev : Event) (a : Agg)
    (h : M (base_user ev.user) = some a) :
    ∃ a', apply_event_to_agg M ev (base_user ev.user) = some a' ∧
      ((a.last_ts = [] ∨ pyStrLt a.last_ts ev.ts = true) →
        a'.last_ts = ev.ts ∧ a'.sample_host = ev.host) ∧
      (a.last_ts ≠ [] → pyStrLt a.last_ts ev.ts = false →
        a'.last_ts = a.last_ts ∧ a'.sample_host = a.sample_host) := by
  rw [apply_event_some_eq M ev a h]
  refine ⟨_, rfl, ?_, ?_⟩
  · intro hc
    have hcond : (a.last_ts.isEmpty || pyStrLt a.last_ts ev.ts) = true := by
      rcases hc with hnil | hlt
      · simp [hnil]
      · simp [hlt]
    exact ⟨by simp [hcond], by simp [hcond]⟩
  · intro hne hflt
    have hcond : (a.last_ts.isEmpty || pyStrLt a.last_ts ev.ts) = false := by
      simp [hflt, List.isEmpty_iff, hne]
    exact ⟨by simp [hcond], by simp [hcond]⟩

def c1Ev2 : Event := ⟨"2024-01-01 00:00:01".toList, "u".toList, "h3".toList⟩

/-- C1 witness: a strictly greater incoming timestamp moves both fields. -/
theorem c1_witness :
    ∃ a', apply_event_to_agg c1Map c1Ev2 (base_user c1Ev2.user) = some a' ∧
      a'.last_ts = c1Ev2.ts ∧ a'.sample_host = c1Ev2.host := by
  obtain ⟨a', heq, hupd, _⟩ := c1_last_ts_update c1Map c1Ev2 c1Agg (by decide)
  obtain ⟨h1, h2⟩ := hupd (Or.inr (by decide))
  exact ⟨a', heq, h1, h2⟩

/-! ### Claim C10: the index is keyed by normalized identity -/

/-- The invariant: every stored record has a non-empty variants set whose
members all normalize to the record's key. -/
def AggInv (M : AggMap) : Prop :=
  ∀ b a, M b = some a → a.variants.Nonempty ∧ ∀ v ∈ a.variants, base_user v = b

/-- C10: `_apply_event_to_agg` preserves the invariant that `AGG` is keyed by
normalized identity: every key's variants set is non-empty and every raw
username in it has that key as its base. -/
theorem c10_normalized_key_invariant (M : AggMap) (ev : Event)
    (h : AggInv M) : AggInv (apply_event_to_agg M ev) := by
  intro b a hba
  by_cases hb : b = base_user ev.user
  · subst hb
    cases hM : M (base_user ev.user) with
    | none =>
      rw [apply_event_none_eq M ev hM] at hba
      obtain rfl := (Option.some_inj.mp hba).symm
      refine ⟨Finset.singleton_nonempty _, ?_⟩
      intro v hv
      rw [Finset.mem_singleton.mp hv]
    | some a0 =>
      rw [apply_event_some_eq M ev a0 hM] at hba
      obtain rfl := (Option.some_inj.mp hba).symm
      refine ⟨Finset.insert_nonempty _ _, ?_⟩
      intro v hv
      rcases Finset.mem_insert.mp hv with rfl | hv0
      · rfl
      · exact (h _ a0 hM).2 v hv0
  · rw [apply_event_other M ev b hb] at hba
    exact h b a hba

def c10Ev : Event := ⟨"2024-01-01 00:00:00".toList, "5823.mohammad".toList, "h".toList⟩

/-- C10 witness: the invariant holds for the empty index and is preserved by
applying a concrete event whose raw username differs from its base. -/
theorem c10_witness : AggInv (apply_event_to_agg (fun _ => none) c10Ev) :=
  c10_normalized_key_invariant (fun _ => none) c10Ev
    (fun b a hba => by simp at hba)

/-! ### Claim C9: the broadcaster -/

/-- C9: `broadcast` appends the message to every currently registered
accepting channel and removes every failing channel within the same call,
leaving unregistered channels untouched; `unsubscribe` is idempotent and a
no-op on unregistered handles. -/
theorem c9_broadcast_delivery {μ : Type} (st : Broadcaster μ)
    (accepts : Nat → Bool) (msg : μ) (q : Nat) :
    (q ∈ st.subscribers → accepts q = true →
      (st.broadcast accepts msg).queues q = st.queues q ++ [msg] ∧
      q ∈ (st.broadcast accepts msg).subscribers) ∧
    (q ∈ st.subscribers → accepts q = false →
      q ∉ (st.broadcast accepts msg).subscribers ∧
      (st.broadcast accepts msg).queues q = st.queues q) ∧
    (q ∉ st.subscribers →
      (st.broadcast accepts msg).queues q = st.queues q ∧
      q ∉ (st.broadcast accepts msg).subscribers) ∧
    (st.unsubscribe q).unsubscribe q = st.unsubscribe q ∧
    (q ∉ st.subscribers → st.unsubscribe q = st) := by
  refine ⟨?_, ?_, ?_, ?_, ?_⟩
  · intro hmem hacc
    constructor
    · simp [Broadcaster.broadcast, hmem, hacc]
    · simp [Broadcaster.broadcast, Finset.mem_filter, hmem, hacc]
  · intro hmem hacc
    constructor
    · simp [Broadcaster.broadcast, Finset.mem_filter, hacc]
    · simp [Broadcaster.broadcast, hacc]
  · intro hmem
    constructor
    · simp [Broadcaster.broadcast, hmem]
    · simp [Broadcaster.broadcast, Finset.mem_filter, hmem]
  · simp [Broadcaster.unsubscribe, Finset.erase_idem]
  · intro hmem
    simp [Broadcaster.unsubscribe, Finset.erase_eq_of_not_mem hmem]

def c9St : Broadcaster Nat := ⟨{0, 1, 2}, fun _ => [], 3⟩

/-- C9 witness: with three live subscribers of which channel 2 rejects, a
publish delivers to channels 0 and 1 and evicts channel 2. -/
theorem c9_witness :
    (c9St.broadcast (fun q => decide (q ≠ 2)) 7).queues 1 = [7] ∧
    (c9St.broadcast (fun q => decide (q ≠ 2)) 7).queues 0 = [7] ∧
    (2 : Nat) ∉ (c9St.broadcast (fun q => decide (q ≠ 2)) 7).subscribers := by
  refine ⟨?_, ?_, ?_⟩
  · exact ((c9_broadcast_delivery c9St (fun q => decide (q ≠ 2)) 7 1).1
      (by decide) (by decide)).1
  · exact ((c9_broadcast_delivery c9St (fun q => decide (q ≠ 2)) 7 0).1
      (by decide) (by decide)).1
  · exact (((c9_broadcast_delivery c9St (fun q => decide (q ≠ 2)) 7 2).2).1
      (by decide) (by decide)).1

/-! ### Claim C7: aggregate invariants over a sequence of events -/

theorem apply_events_some (b : List Char) (evs : List Event) :
    ∀ (M : AggMap) (a : Agg), M b = some a →
    (∀ e ∈ evs, base_user e.user = b) →
    ∃ a', apply_events M evs b = some a' ∧
      a'.count = a.count + evs.length ∧
      a'.last_ts = (evs.map Event.ts).foldl pyMax a.last_ts ∧
      (a.hosts.card ≤ MAX_HOSTS_PER_USER → a'.hosts.card ≤ MAX_HOSTS_PER_USER) := by
  induction evs with
  | nil =>
    intro M a hM _
    exact ⟨a, hM, by simp, by simp, fun hc => hc⟩
  | cons e evs ih =>
    intro M a hM hall
    have hbase : base_user e.user = b := hall e (List.mem_cons_self _ _)
    have hM' : M (base_user e.user) = some a := by rw [hbase]; exact hM
    have heq := apply_event_some_eq M e a hM'
    rw [hbase] at heq
    obtain ⟨a', h1, h2, h3, h4⟩ := ih (apply_event_to_agg M e) _ heq
      (fun e' he' => hall e' (List.mem_cons_of_mem _ he'))
    refine ⟨a', ?_, ?_, ?_, ?_⟩
    · rw [apply_events, List.foldl_cons]
      exact h1
    · rw [h2]
      simp only [List.length_cons]
      omega
    · rw [h3, List.map_cons, List.foldl_cons]
      congr 1
      exact update_eq_pyMax a.last_ts e.ts
    · intro hc
      apply h4
      show (if e.host ≠ [] ∧ a.hosts.card < MAX_HOSTS_PER_USER then
          insert e.host a.hosts else a.hosts).card ≤ MAX_HOSTS_PER_USER
      split_ifs with hcond
      · obtain ⟨-, hlt⟩ := hcond
        have hle := Finset.card_insert_le e.host a.hosts
        omega
      · exact hc

/-- C7: starting from no record, applying `N ≥ 1` events for one base key
yields a record with `count = N`, at most `MAX_HOSTS_PER_USER` sample hosts
and `last_ts` equal to the lexicographic maximum of the applied timestamps;
and every single `Apply` leaves `last_ts` non-decreasing. -/
theorem c7_aggregate_invariants :
    (∀ (b : List Char) (evs : List Event) (M : AggMap),
      M b = none → evs ≠ [] → (∀ e ∈ evs, base_user e.user = b) →
      ∃ a, apply_events M evs b = some a ∧
        a.count = evs.length ∧
        a.hosts.card ≤ MAX_HOSTS_PER_USER ∧
        IsLexMax a.last_ts (evs.map Event.ts)) ∧
    (∀ (M : AggMap) (ev : Event) (b : List Char) (a a' : Agg),
      M b = some a → apply_event_to_agg M ev b = some a' →
      pyStrLt a'.last_ts a.last_ts = false) := by
  constructor
  · intro b evs M hM hne hall
    cases evs with
    | nil => exact absurd rfl hne
    | cons e evs =>
      have hbase : base_user e.user = b := hall e (List.mem_cons_self _ _)
      have hM' : M (base_user e.user) = none := by rw [hbase]; exact hM
      have heq := apply_event_none_eq M e hM'
      rw [hbase] at heq
      obtain ⟨a', h1, h2, h3, h4⟩ := apply_events_some b evs
        (apply_event_to_agg M e) _ heq
        (fun e' he' => hall e' (List.mem_cons_of_mem _ he'))
      refine ⟨a', ?_, ?_, ?_, ?_⟩
      · rw [apply_events, List.foldl_cons]
        exact h1
      · rw [h2]
        show 1 + evs.length = (e :: evs).length
        simp only [List.length_cons]
        omega
      · apply h4
        show (if e.host = [] then ∅ else {e.host} : Finset (List Char)).card ≤
          MAX_HOSTS_PER_USER
        split_ifs with hcond
        · simp [MAX_HOSTS_PER_USER]
        · simp [MAX_HOSTS_PER_USER]
      · rw [h3]
        exact foldl_pyMax_isLexMax (evs.map Event.ts) e.ts
  · intro M ev b a a' hM happ
    by_cases hb : b = base_user ev.user
    · subst hb
      rw [apply_event_some_eq M ev a hM] at happ
      obtain rfl := (Option.some_inj.mp happ).symm
      show pyStrLt (if a.last_ts.isEmpty || pyStrLt a.last_ts ev.ts then ev.ts
        else a.last_ts) a.last_ts = false
      rw [update_eq_pyMax]
      exact pyStrLt_pyMax_left a.last_ts ev.ts
    · rw [apply_event_other M ev b hb, hM] at happ
      obtain rfl := (Option.some_inj.mp happ).symm
      exact pyStrLt_irrefl _

def c7E1 : Event := ⟨"2024-01-01 00:00:01".toList, "u".toList, "h1".toList⟩

def c7E2 : Event := ⟨"2024-01-01 00:00:02".toList, "u".toList, "h2".toList⟩

/-- C7 witness: two events for base `"u"` applied to an empty index. -/
theorem c7_witness :
    ∃ a, apply_events (fun _ => none) [c7E1, c7E2] "u".toList = some a ∧
      a.count = 2 ∧ a.hosts.card ≤ MAX_HOSTS_PER_USER ∧
      IsLexMax a.last_ts [c7E1.ts, c7E2.ts] := by
  obtain ⟨a, h1, h2, h3, h4⟩ := c7_aggregate_invariants.1 ("u".toList) [c7E1, c7E2]
    (fun _ => none) rfl (by simp) (by decide)
  exact ⟨a, h1, h2, h3, h4⟩

/-! ### Claim C8: the stats query -/

/-- Declarative sum of the first (warning) counter over all raw keys
collapsing to base `b`. -/
def sumWarn (b : List Char) : List (List Char × Nat × Nat) → Nat
  | [] => 0
  | e :: l => (if base_user e.1 = b then e.2.1 else 0) + sumWarn b l

/-- Declarative sum of the second (deactivation) counter over all raw keys
collapsing to base `b`. -/
def sumDeact (b : List Char) : List (List Char × Nat × Nat) → Nat
  | [] => 0
  | e :: l => (if base_user e.1 = b then e.2.2 else 0) + sumDeact b l

/-- Whether some raw key collapses to base `b`. -/
def hasBase (b : List Char) : List (List Char × Nat × Nat) → Bool
  | [] => false
  | e :: l => decide (base_user e.1 = b) || hasBase b l

theorem lookupStat_bump_same (b : List Char) (w d : Nat) :
    ∀ acc, lookupStat b (bumpStat b w d acc) =
      match lookupStat b acc with
      | some (w0, d0) => some (w0 + w, d0 + d)
      | none => some (w, d) := by
  intro acc
  induction acc with
  | nil => simp [bumpStat, lookupStat]
  | cons e l ih =>
    obtain ⟨k, w0, d0⟩ := e
    by_cases hk : k = b
    · subst hk
      simp [bumpStat, lookupStat]
    · simp only [bumpStat, lookupStat, if_neg hk, ih]

theorem lookupStat_bump_other (b b' : List Char) (hbb : ¬(b' = b)) (w d : Nat) :
    ∀ acc, lookupStat b' (bumpStat b w d acc) = lookupStat b' acc := by
  intro acc
  induction acc with
  | nil =>
    simp [bumpStat, lookupStat]
    exact fun h => hbb h.symm
  | cons e l ih =>
    obtain ⟨k, w0, d0⟩ := e
    by_cases hk : k = b
    · subst hk
      have hk2 : ¬(k = b') := fun h => hbb h.symm
      simp [bumpStat, lookupStat, hk2]
    · by_cases hk2 : k = b'
      · simp [bumpStat, lookupStat, if_neg hk, hk2, hbb]
      · simp only [bumpStat, lookupStat, if_neg hk, if_neg hk2, ih]

theorem lookupStat_foldl_bump (b : List Char) (l : List (List Char × Nat × Nat)) :
    ∀ acc,
      lookupStat b
        (l.foldl (fun acc e => bumpStat (base_user e.1) e.2.1 e.2.2 acc) acc) =
      match lookupStat b acc with
      | some (w0, d0) => some (w0 + sumWarn b l, d0 + sumDeact b l)
      | none =>
        if hasBase b l then some (sumWarn b l, sumDeact b l) else none := by
  induction l with
  | nil =>
    intro acc
    cases h : lookupStat b acc with
    | none => simp [h, sumWarn, sumDeact, hasBase]
    | some p =>
      obtain ⟨w0, d0⟩ := p
      simp [h, sumWarn, sumDeact]
  | cons e l ih =>
    intro acc
    rw [List.foldl_cons, ih]
    by_cases hb : base_user e.1 = b
    · rw [hb, lookupStat_bump_same]
      cases h : lookupStat b acc with
      | none =>
        simp [sumWarn, sumDeact, hasBase, hb]
      | some p =>
        obtain ⟨w0, d0⟩ := p
        simp [sumWarn, sumDeact, hb, Nat.add_assoc]
    · rw [lookupStat_bump_other (base_user e.1) b (fun h => hb h.symm)]
      cases h : lookupStat b acc with
      | none => simp [sumWarn, sumDeact, hasBase, hb]
      | some p =>
        obtain ⟨w0, d0⟩ := p
        simp [sumWarn, sumDeact, hb]

/-- C8: what the page displays for base `b` is the stats file re-keyed by
base key with both counters summed over all raw keys collapsing to `b`
(`none` when no raw key collapses to `b`); a missing file, unreadable
content or a non-object JSON value yield the empty result, and no error
reaches the caller. -/
theorem c8_stats_query :
    (∀ (entries : List (List Char × Nat × Nat)) (b : List Char),
      statsQuery (.obj entries) b =
        if hasBase b entries then some (sumWarn b entries, sumDeact b entries)
        else none) ∧
    (∀ b, statsQuery .missing b = none) ∧
    (∀ b, statsQuery .malformed b = none) ∧
    (∀ b, statsQuery .nonObject b = none) := by
  refine ⟨?_, ?_, ?_, ?_⟩
  · intro entries b
    unfold statsQuery refreshStats api_stats
    rw [lookupStat_foldl_bump]
    simp [lookupStat]
  · intro b
    rfl
  · intro b
    rfl
  · intro b
    rfl

/-! ### Claim C6: the full scanner -/

theorem takeLine_append (l ext : List Char) (h : '\n' ∈ l) :
    takeLine (l ++ ext) = takeLine l := by
  induction l with
  | nil => simp at h
  | cons c cs ih =>
    by_cases hc : c = '\n'
    · simp [takeLine, hc]
    · have h' : '\n' ∈ cs := by
        rcases List.mem_cons.mp h with h0 | h0
        · exact absurd h0.symm hc
        · exact h0
      simp [takeLine, hc, ih h']

theorem getLast?_drop_of_lt (c : List Char) (pos : Nat) (h : pos < c.length) :
    (c.drop pos).getLast? = c.getLast? := by
  have hne : c.drop pos ≠ [] := by
    intro hnil
    rw [List.drop_eq_nil_iff] at hnil
    omega
  conv_rhs => rw [← List.take_append_drop pos c]
  exact (List.getLast?_append_of_ne_nil _ hne).symm

/-- When the snapshot ends at a line boundary, the scan loop never reads the
appended suffix: every executed `readline` stays inside `c0`. -/
theorem fullScanAux_append (c0 ext : List Char) (hnl : c0.getLast? = some '\n') :
    ∀ fuel pos : Nat,
      fullScanAux (c0 ++ ext) c0.length fuel pos =
        fullScanAux c0 c0.length fuel pos := by
  intro fuel
  induction fuel with
  | zero =>
    intro pos
    rfl
  | succ fuel ih =>
    intro pos
    by_cases hstop : c0.length ≤ pos
    · simp [fullScanAux, hstop]
    · push_neg at hstop
      have hdrop : (c0 ++ ext).drop pos = c0.drop pos ++ ext :=
        List.drop_append_of_le_length (le_of_lt hstop)
      have hmem : '\n' ∈ c0.drop pos := by
        have hlast : (c0.drop pos).getLast? = some '\n' := by
          rw [getLast?_drop_of_lt c0 pos hstop, hnl]
        obtain ⟨hne, hx⟩ :=
          List.mem_getLast?_eq_getLast (Option.mem_def.mpr hlast)
        rw [hx]
        exact List.getLast_mem hne
      have hline : takeLine ((c0 ++ ext).drop pos) = takeLine (c0.drop pos) := by
        rw [hdrop]
        exact takeLine_append _ _ hmem
      simp only [fullScanAux, if_neg (not_le.mpr hstop), hline]
      by_cases hl : takeLine (c0.drop pos) = []
      · simp [hl]
      · simp only [if_neg hl]
        congr 1
        exact ih (pos + (takeLine (c0.drop pos)).length)

def c6Snap : List Char := "2024-01-01 00:00:00 | u | a".toList

def c6Ext : List Char := "b\n".toList

/-- C6 counterexample: when the snapshotted prefix does not end at a line
boundary, the one line straddling `stopOffset` is read past the snapshot, so
bytes appended after the scan's start do reach the index: with snapshot
`"... | u | a"` and appended `"b\n"` the scan applies an event with host
`"ab"`, while scanning the snapshot alone applies host `"a"`. -/
theorem c6_counterexample :
    full_scan_events (c6Snap ++ c6Ext) c6Snap.length 0 =
      [⟨"2024-01-01 00:00:00".toList, "u".toList, "ab".toList⟩] ∧
    full_scan_events c6Snap c6Snap.length 0 =
      [⟨"2024-01-01 00:00:00".toList, "u".toList, "a".toList⟩] ∧
    (full_scan_file (some (c6Snap, c6Ext))).1 ≠
      (full_scan_file (some (c6Snap, []))).1 := by
  decide

/-- C6 (amended): the scan stops at the first line starting at or beyond the
snapshotted `stopOffset`; when the snapshot ends with a newline the scan's
applied events are independent of anything appended after the scan started
(in general only the single line straddling `stopOffset` can pick up appended
bytes); after completion `readBytes = totalBytes = S`, `done` is set and the
error is null, and a missing file sets `done` with a populated error. -/
theorem c6_full_scan_snapshot :
    (∀ c0 ext : List Char, c0.getLast? = some '\n' →
      (full_scan_file (some (c0, ext))).1 = (full_scan_file (some (c0, []))).1) ∧
    (∀ c0 ext : List Char,
      (full_scan_file (some (c0, ext))).2 = ⟨c0.length, c0.length, true, none⟩) ∧
    ((full_scan_file none).2.done = true ∧ (full_scan_file none).2.err ≠ none) := by
  refine ⟨?_, ?_, ?_, ?_⟩
  · intro c0 ext hnl
    show full_scan_events (c0 ++ ext) c0.length 0 =
      full_scan_events (c0 ++ []) c0.length 0
    rw [List.append_nil]
    exact fullScanAux_append c0 ext hnl (c0.length - 0) 0
  · intro c0 ext
    rfl
  · rfl
  · simp [full_scan_file]

def c6SnapNl : List Char := "2024-01-01 00:00:00 | u | a\n".toList

/-- C6 witness: a newline-terminated snapshot is immune to appended data. -/
theorem c6_witness :
    (full_scan_file (some (c6SnapNl, c6Ext))).1 =
      (full_scan_file (some (c6SnapNl, []))).1 :=
  c6_full_scan_snapshot.1 c6SnapNl c6Ext (by decide)

/-! ### Claim C5: `parse_line` against the declarative grammar

The grammar is a declarative reading of `RE_MATCHED`: optional leading
whitespace, the 19-character timestamp shape, whitespace, a literal `|`, a
whitespace-padded non-empty pipe-free user group, a literal `|`, and a
whitespace-padded non-empty newline-free host group reaching the end of the
line. -/

def AllWs (l : List Char) : Prop := ∀ c ∈ l, pyIsSpace c = true

def NoPipe (l : List Char) : Prop := ∀ c ∈ l, c ≠ '|'

def NoNl (l : List Char) : Prop := ∀ c ∈ l, c ≠ '\n'

theorem allWs_nil : AllWs [] := fun c hc => absurd hc (List.not_mem_nil c)

theorem allWs_cons {c : Char} {cs : List Char} (h : pyIsSpace c = true)
    (ht : AllWs cs) : AllWs (c :: cs) := by
  intro d hd
  rcases List.mem_cons.mp hd with rfl | hd'
  · exact h
  · exact ht d hd'

theorem allWs_of_cons {c : Char} {cs : List Char} (h : AllWs (c :: cs)) :
    pyIsSpace c = true ∧ AllWs cs :=
  ⟨h c (List.mem_cons_self _ _), fun d hd => h d (List.mem_cons_of_mem _ hd)⟩

theorem digit_not_ws {c : Char} (h : pyIsDigit c = true) : pyIsSpace c = false := by
  by_contra hc
  rw [Bool.not_eq_false] at hc
  simp only [pyIsSpace, Bool.or_eq_true, decide_eq_true_eq] at hc
  rcases hc with ((((rfl | rfl) | rfl) | rfl) | rfl) | rfl <;>
    exact absurd h (by decide)

theorem pipe_not_ws : pyIsSpace '|' = false := by decide

theorem ws_ne_pipe {c : Char} (h : pyIsSpace c = true) : c ≠ '|' := by
  intro hc
  subst hc
  exact absurd h (by decide)

theorem allWs_noPipe {l : List Char} (h : AllWs l) : NoPipe l :=
  fun c hc => ws_ne_pipe (h c hc)

theorem noPipe_append {l1 l2 : List Char} (h1 : NoPipe l1) (h2 : NoPipe l2) :
    NoPipe (l1 ++ l2) := by
  intro c hc
  rcases List.mem_append.mp hc with hm | hm
  · exact h1 c hm
  · exact h2 c hm

/-! Strip lemmas: stripping is insensitive to all-whitespace padding. -/

theorem dropWhile_ws_append (a x : List Char) (ha : AllWs a) :
    (a ++ x).dropWhile pyIsSpace = x.dropWhile pyIsSpace := by
  induction a with
  | nil => rfl
  | cons c cs ih =>
    obtain ⟨hc, ht⟩ := allWs_of_cons ha
    simp only [List.cons_append, List.dropWhile_cons, hc, if_true]
    exact ih ht

theorem dropWhile_ws_eq_nil (b : List Char) (hb : AllWs b) :
    b.dropWhile pyIsSpace = [] := by
  induction b with
  | nil => rfl
  | cons c cs ih =>
    obtain ⟨hc, ht⟩ := allWs_of_cons hb
    simp only [List.dropWhile_cons, hc, if_true]
    exact ih ht

theorem pyRStrip_append_ws (x b : List Char) (hb : AllWs b) :
    pyRStrip (x ++ b) = pyRStrip x := by
  unfold pyRStrip
  rw [List.reverse_append]
  rw [dropWhile_ws_append b.reverse x.reverse
    (fun c hc => hb c (List.mem_reverse.mp hc))]

theorem pyRStrip_dropWhile_ws_append (u b : List Char) (hb : AllWs b) :
    pyRStrip ((u ++ b).dropWhile pyIsSpace) = pyRStrip (u.dropWhile pyIsSpace) := by
  induction u with
  | nil =>
    simp only [List.nil_append, List.dropWhile_nil]
    rw [dropWhile_ws_eq_nil b hb]
  | cons c cs ih =>
    by_cases hc : pyIsSpace c = true
    · simp only [List.cons_append, List.dropWhile_cons, hc, if_true]
      exact ih
    · simp only [List.cons_append, List.dropWhile_cons, hc, if_false,
        Bool.false_eq_true]
      exact pyRStrip_append_ws (c :: cs) b hb

theorem pyStrip_padded (a u b : List Char) (ha : AllWs a) (hb : AllWs b) :
    pyStrip (a ++ u ++ b) = pyStrip u := by
  unfold pyStrip pyLStrip
  rw [List.append_assoc, dropWhile_ws_append a (u ++ b) ha]
  exact pyRStrip_dropWhile_ws_append u b hb

/-! Forcing lemmas: the split points of a grammar decomposition are unique. -/

theorem ws_prefix_forced :
    ∀ w w' r r' : List Char, w ++ r = w' ++ r' → AllWs w → AllWs w' →
      (∀ c cs, r = c :: cs → pyIsSpace c = false) →
      (∀ c cs, r' = c :: cs → pyIsSpace c = false) →
      w = w' ∧ r = r' := by
  intro w
  induction w with
  | nil =>
    intro w' r r' heq _ hws' hr _
    cases w' with
    | nil =>
      refine ⟨rfl, ?_⟩
      simpa using heq
    | cons c cs =>
      exfalso
      have hc := (allWs_of_cons hws').1
      simp only [List.nil_append, List.cons_append] at heq
      have := hr c (cs ++ r') heq
      rw [hc] at this
      cases this
  | cons c cs ih =>
    intro w' r r' heq hws hws' hr hr'
    cases w' with
    | nil =>
      exfalso
      have hc := (allWs_of_cons hws).1
      simp only [List.nil_append, List.cons_append] at heq
      have := hr' c (cs ++ r) heq.symm
      rw [hc] at this
      cases this
    | cons c' cs' =>
      simp only [List.cons_append] at heq
      injection heq with h1 h2
      subst h1
      obtain ⟨h3, h4⟩ := ih cs' r r' h2 (allWs_of_cons hws).2
        (allWs_of_cons hws').2 hr hr'
      exact ⟨by rw [h3], h4⟩

theorem pipe_split_forced :
    ∀ t t' r r' : List Char, t ++ '|' :: r = t' ++ '|' :: r' →
      NoPipe t → NoPipe t' → t = t' ∧ r = r' := by
  intro t
  induction t with
  | nil =>
    intro t' r r' heq _ hnp'
    cases t' with
    | nil =>
      refine ⟨rfl, ?_⟩
      simpa using heq
    | cons c cs =>
      exfalso
      simp only [List.nil_append, List.cons_append] at heq
      injection heq with h1 _
      exact hnp' c (List.mem_cons_self _ _) h1.symm
  | cons c cs ih =>
    intro t' r r' heq hnp hnp'
    cases t' with
    | nil =>
      exfalso
      simp only [List.nil_append, List.cons_append] at heq
      injection heq with h1 _
      exact hnp c (List.mem_cons_self _ _) h1
    | cons c' cs' =>
      simp only [List.cons_append] at heq
      injection heq with h1 h2
      subst h1
      obtain ⟨h3, h4⟩ := ih cs' r r' h2
        (fun d hd => hnp d (List.mem_cons_of_mem _ hd))
        (fun d hd => hnp' d (List.mem_cons_of_mem _ hd))
      exact ⟨by rw [h3], h4⟩

/-! Timestamp-shape facts. -/

theorem matchesPattern_length :
    ∀ (ps : List (Char → Bool)) (l : List Char),
      matchesPattern ps l = true → l.length = ps.length := by
  intro ps
  induction ps with
  | nil =>
    intro l h
    cases l with
    | nil => rfl
    | cons c cs => simp [matchesPattern] at h
  | cons p ps ih =>
    intro l h
    cases l with
    | nil => simp [matchesPattern] at h
    | cons c cs =>
      simp only [matchesPattern, Bool.and_eq_true] at h
      simp only [List.length_cons, ih cs h.2]

theorem tsShape_length {l : List Char} (h : tsShape l = true) : l.length = 19 := by
  rw [matchesPattern_length tsPattern l h]
  rfl

theorem tsShape_head {l : List Char} (h : tsShape l = true) :
    ∃ c cs, l = c :: cs ∧ pyIsDigit c = true := by
  cases l with
  | nil => simp [tsShape, tsPattern, matchesPattern] at h
  | cons c cs =>
    refine ⟨c, cs, rfl, ?_⟩
    simp only [tsShape, tsPattern, matchesPattern, Bool.and_eq_true] at h
    exact h.1

/-! Soundness and completeness of the matcher combinators. -/

theorem starWs_sound {α : Type} (k : List Char → Option α) :
    ∀ (s : List Char) (x : α), starWs k s = some x →
      ∃ w r, s = w ++ r ∧ AllWs w ∧ k r = some x := by
  intro s
  induction s with
  | nil =>
    intro x h
    exact ⟨[], [], rfl, allWs_nil, h⟩
  | cons c cs ih =>
    intro x h
    by_cases hc : pyIsSpace c = true
    · simp only [starWs, if_pos hc] at h
      cases hrec : starWs k cs with
      | some y =>
        rw [hrec] at h
        have h' : y = x := Option.some_inj.mp h
        subst h'
        obtain ⟨w, r, h1, h2, h3⟩ := ih y hrec
        exact ⟨c :: w, r, by rw [List.cons_append, ← h1], allWs_cons hc h2, h3⟩
      | none =>
        rw [hrec] at h
        exact ⟨[], c :: cs, rfl, allWs_nil, h⟩
    · simp only [starWs, if_neg hc] at h
      exact ⟨[], c :: cs, rfl, allWs_nil, h⟩

theorem starWs_none {α : Type} (k : List Char → Option α) :
    ∀ s : List Char, starWs k s = none →
      ∀ w r, s = w ++ r → AllWs w → k r = none := by
  intro s
  induction s with
  | nil =>
    intro h w r hsplit _
    obtain ⟨rfl, rfl⟩ := List.append_eq_nil.mp hsplit.symm
    exact h
  | cons c cs ih =>
    intro h w r hsplit hws
    cases w with
    | nil =>
      simp only [List.nil_append] at hsplit
      subst hsplit
      by_cases hc : pyIsSpace c = true
      · simp only [starWs, if_pos hc] at h
        cases hrec : starWs k cs with
        | some y =>
          rw [hrec] at h
          cases h
        | none =>
          rw [hrec] at h
          exact h
      · simp only [starWs, if_neg hc] at h
        exact h
    | cons w0 ws =>
      simp only [List.cons_append] at hsplit
      injection hsplit with h1 h2
      subst h1
      have hc : pyIsSpace c = true := (allWs_of_cons hws).1
      simp only [starWs, if_pos hc] at h
      have hrecnone : starWs k cs = none := by
        cases hrec : starWs k cs with
        | some y =>
          rw [hrec] at h
          cases h
        | none => rfl
      exact ih hrecnone ws r h2 (allWs_of_cons hws).2

theorem plusNonPipeLazy_sound {α : Type} :
    ∀ (s : List Char) (k : List Char → List Char → Option α) (x : α),
      plusNonPipeLazy k s = some x →
      ∃ g r, s = g ++ r ∧ g ≠ [] ∧ NoPipe g ∧ k g r = some x := by
  intro s
  induction s with
  | nil =>
    intro k x h
    simp [plusNonPipeLazy] at h
  | cons c cs ih =>
    intro k x h
    by_cases hc : c = '|'
    · simp only [plusNonPipeLazy, if_pos hc] at h
      cases h
    · simp only [plusNonPipeLazy, if_neg hc] at h
      cases hk : k [c] cs with
      | some y =>
        rw [hk] at h
        have h' : y = x := Option.some_inj.mp h
        subst h'
        refine ⟨[c], cs, rfl, by simp, ?_, hk⟩
        intro d hd
        rw [List.mem_singleton.mp hd]
        exact hc
      | none =>
        rw [hk] at h
        obtain ⟨g, r, h1, h2, h3, h4⟩ := ih _ x h
        refine ⟨c :: g, r, by rw [List.cons_append, ← h1], by simp, ?_, h4⟩
        intro d hd
        rcases List.mem_cons.mp hd with rfl | hd'
        · exact hc
        · exact h3 d hd'

theorem plusNonPipeLazy_none {α : Type} :
    ∀ (s : List Char) (k : List Char → List Char → Option α),
      plusNonPipeLazy k s = none →
      ∀ g r, s = g ++ r → g ≠ [] → NoPipe g → k g r = none := by
  intro s
  induction s with
  | nil =>
    intro k h g r hsplit hg _
    obtain ⟨rfl, rfl⟩ := List.append_eq_nil.mp hsplit.symm
    exact absurd rfl hg
  | cons c cs ih =>
    intro k h g r hsplit hg hnp
    cases g with
    | nil => exact absurd rfl hg
    | cons g0 gs =>
      simp only [List.cons_append] at hsplit
      injection hsplit with h1 h2
      subst h1
      have hc : ¬(c = '|') := hnp c (List.mem_cons_self _ _)
      simp only [plusNonPipeLazy, if_neg hc] at h
      have hks : k [c] cs = none ∧ plusNonPipeLazy (fun g r => k (c :: g) r) cs = none := by
        cases hk : k [c] cs with
        | some y =>
          rw [hk] at h
          cases h
        | none =>
          rw [hk] at h
          exact ⟨rfl, h⟩
      cases gs with
      | nil =>
        simp only [List.nil_append] at h2
        subst h2
        exact hks.1
      | cons g1 gs' =>
        exact ih _ hks.2 (g1 :: gs') r h2 (by simp)
          (fun d hd => hnp d (List.mem_cons_of_mem _ hd))

theorem plusDotGreedy_sound {α : Type} :
    ∀ (s : List Char) (k : List Char → List Char → Option α) (x : α),
      plusDotGreedy k s = some x →
      ∃ g r, s = g ++ r ∧ g ≠ [] ∧ NoNl g ∧ k g r = some x := by
  intro s
  induction s with
  | nil =>
    intro k x h
    simp [plusDotGreedy] at h
  | cons c cs ih =>
    intro k x h
    by_cases hc : c = '\n'
    · simp only [plusDotGreedy, if_pos hc] at h
      cases h
    · simp only [plusDotGreedy, if_neg hc] at h
      cases hrec : plusDotGreedy (fun g r => k (c :: g) r) cs with
      | some y =>
        rw [hrec] at h
        have h' : y = x := Option.some_inj.mp h
        subst h'
        obtain ⟨g, r, h1, h2, h3, h4⟩ := ih _ y hrec
        refine ⟨c :: g, r, by rw [List.cons_append, ← h1], by simp, ?_, h4⟩
        intro d hd
        rcases List.mem_cons.mp hd with rfl | hd'
        · exact hc
        · exact h3 d hd'
      | none =>
        rw [hrec] at h
        refine ⟨[c], cs, rfl, by simp, ?_, h⟩
        intro d hd
        rw [List.mem_singleton.mp hd]
        exact hc

theorem plusDotGreedy_none {α : Type} :
    ∀ (s : List Char) (k : List Char → List Char → Option α),
      plusDotGreedy k s = none →
      ∀ g r, s = g ++ r → g ≠ [] → NoNl g → k g r = none := by
  intro s
  induction s with
  | nil =>
    intro k h g r hsplit hg _
    obtain ⟨rfl, rfl⟩ := List.append_eq_nil.mp hsplit.symm
    exact absurd rfl hg
  | cons c cs ih =>
    intro k h g r hsplit hg hnn
    cases g with
    | nil => exact absurd rfl hg
    | cons g0 gs =>
      simp only [List.cons_append] at hsplit
      injection hsplit with h1 h2
      subst h1
      have hc : ¬(c = '\n') := hnn c (List.mem_cons_self _ _)
      simp only [plusDotGreedy, if_neg hc] at h
      have hks : plusDotGreedy (fun g r => k (c :: g) r) cs = none ∧ k [c] cs = none := by
        cases hrec : plusDotGreedy (fun g r => k (c :: g) r) cs with
        | some y =>
          rw [hrec] at h
          cases h
        | none =>
          rw [hrec] at h
          exact ⟨rfl, h⟩
      cases gs with
      | nil =>
        simp only [List.nil_append] at h2
        subst h2
        exact hks.2
      | cons g1 gs' =>
        exact ih _ hks.1 (g1 :: gs') r h2 (by simp)
          (fun d hd => hnn d (List.mem_cons_of_mem _ hd))

theorem expectChar_sound {α : Type} (c : Char) (k : List Char → Option α)
    (s : List Char) (x : α) (h : expectChar c k s = some x) :
    ∃ r, s = c :: r ∧ k r = some x := by
  cases s with
  | nil => simp [expectChar] at h
  | cons a as =>
    by_cases hac : a = c
    · subst hac
      refine ⟨as, rfl, ?_⟩
      simpa [expectChar] using h
    · simp [expectChar, hac] at h

theorem expectChar_none {α : Type} (c : Char) (k : List Char → Option α)
    (s : List Char) (h : expectChar c k s = none) :
    ∀ r, s = c :: r → k r = none := by
  intro r hs
  subst hs
  simpa [expectChar] using h

/-- The declarative reading of `RE_MATCHED` with its three capture groups:
whitespace, timestamp, whitespace, `|`, a whitespace-padded non-empty
pipe-free user group, `|`, a whitespace-padded non-empty newline-free host
group, end of line. -/
def LineMatches (s ts u h : List Char) : Prop :=
  ∃ w1 w2 a b c d : List Char,
    s = w1 ++ ts ++ w2 ++ '|' :: ((a ++ u ++ b) ++ '|' :: (c ++ h ++ d)) ∧
    AllWs w1 ∧ AllWs w2 ∧ AllWs a ∧ AllWs b ∧ AllWs c ∧ AllWs d ∧
    tsShape ts = true ∧ u ≠ [] ∧ NoPipe u ∧ h ≠ [] ∧ NoNl h

theorem reMatch_sound (s ts u h : List Char)
    (hm : reMatchGroups s = some (ts, u, h)) : LineMatches s ts u h := by
  obtain ⟨w1, r1, hs1, hw1, hk1⟩ := starWs_sound _ s (ts, u, h) hm
  have hk1' : (if tsShape (r1.take 19) = true then
      afterTs (r1.take 19) (r1.drop 19) else none) = some (ts, u, h) := hk1
  by_cases hts : tsShape (r1.take 19) = true
  case neg =>
    rw [if_neg hts] at hk1'
    cases hk1'
  rw [if_pos hts] at hk1'
  obtain ⟨w2, r2, hs2, hw2, hk2⟩ := starWs_sound _ _ _ hk1'
  obtain ⟨r3, hr3, hk3⟩ := expectChar_sound '|' _ r2 _ hk2
  have hk3' : plusNonPipeLazy (fun g2 r2 => afterUser (r1.take 19) g2 r2) r3 =
      some (ts, u, h) := hk3
  obtain ⟨g2, r4, hs4, hg2ne, hg2np, hk4⟩ := plusNonPipeLazy_sound r3 _ _ hk3'
  have hk4' : afterUser (r1.take 19) g2 r4 = some (ts, u, h) := hk4
  obtain ⟨w3, r5, hs5, hw3, hk5⟩ := starWs_sound _ _ _ hk4'
  obtain ⟨r6, hr6, hk6⟩ := expectChar_sound '|' _ r5 _ hk5
  have hk6' : hostPart (r1.take 19) g2 r6 = some (ts, u, h) := hk6
  obtain ⟨w4, r7, hs7, hw4, hk7⟩ := starWs_sound _ _ _ hk6'
  have hk7' : plusDotGreedy (fun g3 r3 => finishRe (r1.take 19) g2 g3 r3) r7 =
      some (ts, u, h) := hk7
  obtain ⟨g3, r8, hs8, hg3ne, hg3nn, hk8⟩ := plusDotGreedy_sound r7 _ _ hk7'
  have hk8' : finishRe (r1.take 19) g2 g3 r8 = some (ts, u, h) := hk8
  obtain ⟨w5, r9, hs9, hw5, hk9⟩ := starWs_sound _ _ _ hk8'
  have hk9' : (if r9 = [] then some (r1.take 19, g2, g3) else none) =
      some (ts, u, h) := hk9
  by_cases hr9 : r9 = []
  case neg =>
    rw [if_neg hr9] at hk9'
    cases hk9'
  rw [if_pos hr9] at hk9'
  have heq3 := Option.some_inj.mp hk9'
  have hts2 : r1.take 19 = ts := congrArg Prod.fst heq3
  have hu2 : g2 = u := congrArg (fun p => p.2.1) heq3
  have hh2 : g3 = h := congrArg (fun p => p.2.2) heq3
  have hr1 : r1 = ts ++ r1.drop 19 := by
    rw [← hts2]
    exact (List.take_append_drop 19 r1).symm
  have hs4' : r3 = u ++ r4 := by
    rw [← hu2]
    exact hs4
  have hs8' : r7 = h ++ r8 := by
    rw [← hh2]
    exact hs8
  rw [hts2] at hts
  refine ⟨w1, w2, [], w3, w4, w5, ?_, hw1, hw2, allWs_nil, hw3, hw4, hw5, hts,
    ?_, ?_, ?_, ?_⟩
  · rw [hs1, hr1, hs2, hr3, hs4', hs5, hr6, hs7, hs8', hs9, hr9]
    simp [List.append_assoc]
  · rw [← hu2]
    exact hg2ne
  · rw [← hu2]
    exact hg2np
  · rw [← hh2]
    exact hg3ne
  · rw [← hh2]
    exact hg3nn

theorem reMatch_complete (s ts u h : List Char) (hlm : LineMatches s ts u h) :
    reMatchGroups s ≠ none := by
  intro hnone
  obtain ⟨w1, w2, a, b, c, d, hs, hw1, hw2, ha, hb, hc, hd, hts, hune, hunp,
    hhne, hhnn⟩ := hlm
  obtain ⟨t0, ts0, hts0, ht0⟩ := tsShape_head hts
  have hlen := tsShape_length hts
  have h1 := starWs_none _ s hnone w1
    (ts ++ (w2 ++ ('|' :: ((a ++ u ++ b) ++ '|' :: (c ++ h ++ d)))))
    (by rw [hs]; simp [List.append_assoc]) hw1
  have h1' : (if tsShape ((ts ++ (w2 ++ ('|' :: ((a ++ u ++ b) ++ '|' ::
      (c ++ h ++ d))))).take 19) = true then
      afterTs ((ts ++ (w2 ++ ('|' :: ((a ++ u ++ b) ++ '|' ::
        (c ++ h ++ d))))).take 19)
        ((ts ++ (w2 ++ ('|' :: ((a ++ u ++ b) ++ '|' ::
          (c ++ h ++ d))))).drop 19)
      else none) = none := h1
  have htake : (ts ++ (w2 ++ ('|' :: ((a ++ u ++ b) ++ '|' ::
      (c ++ h ++ d))))).take 19 = ts := by
    rw [← hlen]
    exact List.take_left ts _
  have hdrop : (ts ++ (w2 ++ ('|' :: ((a ++ u ++ b) ++ '|' ::
      (c ++ h ++ d))))).drop 19 =
      w2 ++ ('|' :: ((a ++ u ++ b) ++ '|' :: (c ++ h ++ d))) := by
    rw [← hlen]
    exact List.drop_left ts _
  rw [htake, if_pos hts, hdrop] at h1'
  have h2 := starWs_none _ _ h1' w2 ('|' :: ((a ++ u ++ b) ++ '|' ::
    (c ++ h ++ d))) rfl hw2
  have h3 := expectChar_none '|' _ _ h2
    ((a ++ u ++ b) ++ '|' :: (c ++ h ++ d)) rfl
  have h3' : plusNonPipeLazy (fun g2 r2 => afterUser ts g2 r2)
      ((a ++ u ++ b) ++ '|' :: (c ++ h ++ d)) = none := h3
  have hGne : a ++ u ++ b ≠ [] := by
    intro hnil
    obtain ⟨h5, h6⟩ := List.append_eq_nil.mp hnil
    obtain ⟨h7, h8⟩ := List.append_eq_nil.mp h5
    exact hune h8
  have hGnp : NoPipe (a ++ u ++ b) :=
    noPipe_append (noPipe_append (allWs_noPipe ha) hunp) (allWs_noPipe hb)
  have h4 := plusNonPipeLazy_none _ _ h3' (a ++ u ++ b)
    ('|' :: (c ++ h ++ d)) rfl hGne hGnp
  have h4' : afterUser ts (a ++ u ++ b) ('|' :: (c ++ h ++ d)) = none := h4
  have h5 := starWs_none _ _ h4' [] ('|' :: (c ++ h ++ d)) rfl allWs_nil
  have h6 := expectChar_none '|' _ _ h5 (c ++ h ++ d) rfl
  have h6' : hostPart ts (a ++ u ++ b) (c ++ h ++ d) = none := h6
  have h7 := starWs_none _ _ h6' c (h ++ d) (by rw [List.append_assoc]) hc
  have h7' : plusDotGreedy
      (fun g3 r3 => finishRe ts (a ++ u ++ b) g3 r3) (h ++ d) = none := h7
  have h8 := plusDotGreedy_none _ _ h7' h d rfl hhne hhnn
  have h8' : finishRe ts (a ++ u ++ b) h d = none := h8
  have h9 := starWs_none _ _ h8' d [] (by rw [List.append_nil]) hd
  have h9' : (if ([] : List Char) = [] then
      some (ts, a ++ u ++ b, h) else none) = none := h9
  rw [if_pos rfl] at h9'
  cases h9'

theorem lineMatches_unique (s ts u h ts' u' h' : List Char)
    (hm : LineMatches s ts u h) (hm' : LineMatches s ts' u' h') :
    ts = ts' ∧ pyStrip u = pyStrip u' ∧ pyStrip h = pyStrip h' := by
  obtain ⟨w1, w2, a, b, c, d, hs, hw1, hw2, ha, hb, hc, hd, hts, hune, hunp,
    hhne, hhnn⟩ := hm
  obtain ⟨w1', w2', a', b', c', d', hs', hw1', hw2', ha', hb', hc', hd', hts',
    hune', hunp', hhne', hhnn'⟩ := hm'
  have heqA : w1 ++ (ts ++ (w2 ++ ('|' :: ((a ++ u ++ b) ++ '|' ::
      (c ++ h ++ d))))) =
      w1' ++ (ts' ++ (w2' ++ ('|' :: ((a' ++ u' ++ b') ++ '|' ::
      (c' ++ h' ++ d'))))) := by
    have h0 := hs.symm.trans hs'
    simpa [List.append_assoc] using h0
  obtain ⟨t0, ts0, hts0, ht0⟩ := tsShape_head hts
  obtain ⟨t0', ts0', hts0', ht0'⟩ := tsShape_head hts'
  obtain ⟨hw1eq, h1r⟩ := ws_prefix_forced w1 w1' _ _ heqA hw1 hw1'
    (by
      intro c0 cs0 hcc
      rw [hts0, List.cons_append] at hcc
      injection hcc with hc0 _
      rw [← hc0]
      exact digit_not_ws ht0)
    (by
      intro c0 cs0 hcc
      rw [hts0', List.cons_append] at hcc
      injection hcc with hc0 _
      rw [← hc0]
      exact digit_not_ws ht0')
  have hlents : ts.length = ts'.length := by
    rw [tsShape_length hts, tsShape_length hts']
  obtain ⟨htseq, h2r⟩ := List.append_inj h1r hlents
  obtain ⟨hw2eq, h3r⟩ := ws_prefix_forced w2 w2' _ _ h2r hw2 hw2'
    (by
      intro c0 cs0 hcc
      injection hcc with hc0 _
      rw [← hc0]
      exact pipe_not_ws)
    (by
      intro c0 cs0 hcc
      injection hcc with hc0 _
      rw [← hc0]
      exact pipe_not_ws)
  injection h3r with _ h4r
  obtain ⟨hG, hH⟩ := pipe_split_forced _ _ _ _ h4r
    (noPipe_append (noPipe_append (allWs_noPipe ha) hunp) (allWs_noPipe hb))
    (noPipe_append (noPipe_append (allWs_noPipe ha') hunp') (allWs_noPipe hb'))
  refine ⟨htseq, ?_, ?_⟩
  · rw [← pyStrip_padded a u b ha hb, ← pyStrip_padded a' u' b' ha' hb', hG]
  · rw [← pyStrip_padded c h d hc hd, ← pyStrip_padded c' h' d' hc' hd', hH]

/-- C5: `parse_line` returns an event exactly when the line matches the
three-field grammar of `RE_MATCHED` with a user that is non-empty after
trimming, and the event then carries the timestamp, the trimmed user and the
trimmed host, with `"UNKNOWN"` substituted when the host group trims to the
empty string; every other line yields no event.  (`parse_line` is a total
function, so it cannot raise.) -/
theorem c5_parse_line_grammar (s : List Char) (ev : Event) :
    parse_line s = some ev ↔
      ∃ ts u h, LineMatches s ts u h ∧ pyStrip u ≠ [] ∧
        ev = ⟨ts, pyStrip u, if pyStrip h = [] then UNKNOWN else pyStrip h⟩ := by
  constructor
  · intro hp
    unfold parse_line at hp
    cases hm : reMatchGroups s with
    | none =>
      rw [hm] at hp
      cases hp
    | some t =>
      obtain ⟨ts, u, h⟩ := t
      rw [hm] at hp
      have hp' : (if pyStrip u = [] then none else
          some (⟨ts, pyStrip u,
            if pyStrip h = [] then UNKNOWN else pyStrip h⟩ : Event)) =
          some ev := hp
      by_cases hu : pyStrip u = []
      · rw [if_pos hu] at hp'
        cases hp'
      · rw [if_neg hu] at hp'
        exact ⟨ts, u, h, reMatch_sound s ts u h hm, hu,
          (Option.some_inj.mp hp').symm⟩
  · rintro ⟨ts, u, h, hlm, hu, rfl⟩
    cases hm : reMatchGroups s with
    | none => exact absurd hm (reMatch_complete s ts u h hlm)
    | some t =>
      obtain ⟨ts0, u0, h0⟩ := t
      have hlm0 := reMatch_sound s ts0 u0 h0 hm
      obtain ⟨htsS, huS, hhS⟩ := lineMatches_unique s ts0 u0 h0 ts u h hlm0 hlm
      have hu0 : ¬(pyStrip u0 = []) := by
        rw [huS]
        exact hu
      unfold parse_line
      rw [hm]
      show (if pyStrip u0 = [] then none else
          some (⟨ts0, pyStrip u0,
            if pyStrip h0 = [] then UNKNOWN else pyStrip h0⟩ : Event)) =
        some ⟨ts, pyStrip u, if pyStrip h = [] then UNKNOWN else pyStrip h⟩
      rw [if_neg hu0, htsS, huS, hhS]

end Darkob
